import Mathlib

/-!
A verification development for the PDF title extraction and renaming tool
(`pdf_title_renamer.py`).  The Python code is shallowly embedded: strings are
Lean `String`s (operated on through their underlying `List Char`), the
per-document state that the Python code obtains through PyPDF2/pdfplumber I/O
(encryption flags, metadata mapping, per-region text buffers) is collected in an
explicit `Document` record, and each Python function becomes a Lean function of
the same name.  Python string operations are modelled character-exactly for the
ASCII range (`str.strip`/`str.lower`/`str.isupper` etc. are given their ASCII
semantics; the repository only manipulates such data in the modelled paths).
The floating-point uppercase-ratio comparison `0.2 < u/n < 0.8` is embedded as
the exact rational comparison `n < 5*u ∧ 5*u < 4*n`, which agrees with the
IEEE double computation on all realistic line lengths.
-/

namespace PdfTitleRenamer

/-! ### Character and string helpers (models of Python primitives) -/

/-- Model of Python's `needle in hay` substring test on character lists. -/
def containsSub (needle : List Char) : List Char → Bool
  | [] => needle.isEmpty
  | c :: t => needle.isPrefixOf (c :: t) || containsSub needle t

/-- Model of Python's `str.lower()` (ASCII case folding). -/
def pyLower (s : String) : String := ⟨s.data.map Char.toLower⟩

/-- Whitespace classifier used to model Python's whitespace class. -/
def isWs (c : Char) : Bool := c.isWhitespace

/-- Drop trailing characters satisfying `p` (used to model the right half of
Python's `str.strip`). -/
def dropTrailingP (p : Char → Bool) : List Char → List Char
  | [] => []
  | c :: cs =>
    let r := dropTrailingP p cs
    if r.isEmpty && p c then [] else c :: r

/-- Strip leading and trailing whitespace from a character list
(model of Python's `str.strip()`). -/
def stripChars (cs : List Char) : List Char :=
  dropTrailingP isWs (cs.dropWhile isWs)

/-- Model of Python's `str.strip()` on `String`. -/
def pyStrip (s : String) : String := ⟨stripChars s.data⟩

/-- Model of Python's `str.split('\n')`: split at every newline, keeping empty
pieces (the result is always non-empty). -/
def splitLinesChars : List Char → List (List Char)
  | [] => [[]]
  | c :: cs =>
    if c = '\n' then [] :: splitLinesChars cs
    else
      match splitLinesChars cs with
      | r :: rs => (c :: r) :: rs
      | [] => [[c]]

/-- `text.split('\n')` on `String`. -/
def splitLines (s : String) : List String :=
  (splitLinesChars s.data).map (fun l => (⟨l⟩ : String))

/-- Split at every whitespace character, keeping empty pieces. -/
def splitByWsChars : List Char → List (List Char)
  | [] => [[]]
  | c :: cs =>
    if isWs c then [] :: splitByWsChars cs
    else
      match splitByWsChars cs with
      | r :: rs => (c :: r) :: rs
      | [] => [[c]]

/-- Model of Python's `str.split()` with no argument: split on whitespace runs,
discarding empty pieces. -/
def pyWords (s : String) : List String :=
  ((splitByWsChars s.data).map (fun l => (⟨l⟩ : String))).filter (fun w => !(w == ""))

/-- Model of Python's `str.isdigit()`: non-empty and all digits. -/
def pyIsDigit (s : String) : Bool := !s.data.isEmpty && s.data.all Char.isDigit

/-- Model of Python's slicing `s[:n]`. -/
def pyTake (s : String) (n : Nat) : String := ⟨s.data.take n⟩

/-- Does the list contain four consecutive digit characters?  (Model of the
regex fragment `\d{4}` under `re.search`.) -/
def fourDigitStart : List Char → Bool
  | c1 :: c2 :: c3 :: c4 :: _ => c1.isDigit && c2.isDigit && c3.isDigit && c4.isDigit
  | _ => false

def hasFourConsecDigits : List Char → Bool
  | [] => false
  | c :: cs => fourDigitStart (c :: cs) || hasFourConsecDigits cs

/-! ### Configuration constants (`class Config`) -/

/-- `Config.ILLEGAL_CHARS`, in Python dict insertion order. -/
def ILLEGAL_CHARS : List (Char × List Char) :=
  [('<', ['(']), ('>', [')']), (':', [' ', '-']), ('"', []),
   ('/', ['-']), ('\\', ['-']), ('|', ['-']), ('?', []), ('*', [])]

def MAX_TITLE_LENGTH : Nat := 150

def TITLE_KEYWORDS : List String :=
  ["research", "study", "investigation", "analysis", "method", "approach",
   "algorithm", "model", "system", "framework", "technique", "solution",
   "theory", "design", "implementation", "evaluation", "comparison"]

def INSTITUTION_KEYWORDS : List String :=
  ["university", "institute", "lab", "laboratory", "school", "college",
   "department", "center", "faculty", "academy", "research", "institute of",
   "university of", "dept.", "school of", "college of"]

/-! ### `sanitize_filename` -/

/-- One Python `str.replace(c, r)` where `c` is a single character. -/
def replaceChar (c : Char) (r : List Char) (cs : List Char) : List Char :=
  cs.flatMap (fun x => if x = c then r else [x])

/-- The sequential replacement loop over `Config.ILLEGAL_CHARS`. -/
def applyIllegalRepl (cs : List Char) : List Char :=
  ILLEGAL_CHARS.foldl (fun acc p => replaceChar p.1 p.2 acc) cs

/-- Model of `re.sub(r'\s+', ' ', s)`: every maximal whitespace run becomes a
single space.  The boolean records whether we are inside a run. -/
def collapseWsAux (inRun : Bool) : List Char → List Char
  | [] => []
  | c :: cs =>
    if isWs c then
      if inRun then collapseWsAux true cs else ' ' :: collapseWsAux true cs
    else c :: collapseWsAux false cs

def collapseWs (cs : List Char) : List Char := collapseWsAux false cs

/-- Model of `re.sub(r'\s*\.\s*', '.', s)`: whitespace adjacent (through a
whitespace run) to a period is deleted.  `afterDot` records that the previous
emitted character was a period whose trailing `\s*` is still being consumed;
`pending` buffers a whitespace run whose classification is not yet known. -/
def dotSubAux (afterDot : Bool) (pending : List Char) : List Char → List Char
  | [] => pending
  | c :: cs =>
    if c = '.' then '.' :: dotSubAux true [] cs
    else if isWs c then
      if afterDot then dotSubAux true [] cs
      else dotSubAux false (pending ++ [c]) cs
    else pending ++ (c :: dotSubAux false [] cs)

def dotSubChars (cs : List Char) : List Char := dotSubAux false [] cs

/-- `sanitize_filename` (`pdf_title_renamer.py:92-113`).  The fallback label
`未命名` is the literal used by the source. -/
def sanitize_filename (filename : String) : String :=
  if filename = "" then "未命名"
  else
    let s1 := applyIllegalRepl filename.data
    let s2 := stripChars (collapseWs s1)
    let s3 := dotSubChars s2
    let s4 := if s3.length > MAX_TITLE_LENGTH then s3.take MAX_TITLE_LENGTH else s3
    if s4.isEmpty || s4 = ['.'] then "未命名" else ⟨s4⟩

/-! ### `validate_title` and `extract_institution` -/

/-- `validate_title` (`pdf_title_renamer.py:115-133`). -/
def validate_title (title : String) : Bool :=
  if title = "" || (pyStrip title).length < 5 then false
  else if TITLE_KEYWORDS.any
      (fun k => containsSub (pyLower k).data (pyLower title).data) then true
  else if decide (3 ≤ (pyWords title).length) && decide (15 < title.length) then true
  else false

/-- The per-line institution keyword scan inside `extract_institution`. -/
def findInstLine : List String → Option String
  | [] => none
  | line :: rest =>
    let ll := pyStrip (pyLower line)
    if INSTITUTION_KEYWORDS.any (fun k => containsSub (pyLower k).data ll.data) then
      some (pyTake (pyStrip line) 100)
    else findInstLine rest

/-- `extract_institution` (`pdf_title_renamer.py:135-151`). -/
def extract_institution (text : String) : Option String :=
  if text = "" then none
  else findInstLine (splitLines text)

/-! ### `extract_title_from_text` (the candidate scorer) -/

/-- The alternatives of the exclusion regex
`r'\d{4}|vol\.|no\.|pp\.|et al|DOI|http|www|@|email|abstract|introduction'`
other than `\d{4}`, already lower-cased (the search is `re.IGNORECASE`). -/
def EXCLUSION_MARKERS : List String :=
  ["vol.", "no.", "pp.", "et al", "doi", "http", "www", "@", "email",
   "abstract", "introduction"]

/-- Does the exclusion regex match the line (`pdf_title_renamer.py:303-304`)? -/
def is_excluded_line (line : String) : Bool :=
  hasFourConsecDigits line.data ||
    EXCLUSION_MARKERS.any (fun m => containsSub m.data (pyLower line).data)

/-- The additive title-likeness score (`pdf_title_renamer.py:310-326`).
The uppercase-ratio test `0.2 < u / max(len,1) < 0.8` is embedded exactly in
rational form: with `d = max len 1` it is `d < 5*u ∧ 5*u < 4*d`. -/
def score_line (line : String) : Nat :=
  let n := line.length
  let w := (pyWords line).length
  let u := (line.data.filter Char.isUpper).length
  let d := max n 1
  (if 15 < n ∧ n < 200 then 2 else 0) +
  (if 4 < w ∧ w < 30 then 2 else 0) +
  (if d < 5 * u ∧ 5 * u < 4 * d then 1 else 0) +
  (if TITLE_KEYWORDS.any
      (fun k => containsSub (pyLower k).data (pyLower line).data) then 3 else 0)

/-- The stripped, non-empty, longer-than-3 lines
(`meaningful_lines`, `pdf_title_renamer.py:293-294`). -/
def meaningful_lines (text : String) : List String :=
  ((splitLines text).map pyStrip).filter
    (fun l => !(l == "") && decide (3 < l.length))

/-- Strategy 1's candidate list (`pdf_title_renamer.py:300-328`): among the
first 10 meaningful lines, the non-excluded ones with at least 3 words and
length over 10, paired with their score. -/
def candidate_titles (text : String) : List (String × Nat) :=
  ((meaningful_lines text).take 10).filterMap (fun line =>
    if is_excluded_line line then none
    else if decide (3 ≤ (pyWords line).length) && decide (10 < line.length) then
      some (line, score_line line)
    else none)

/-- Stable insertion of a scored line into a list sorted by descending score:
an element moves ahead only of strictly smaller scores, so equal scores keep
their original order. -/
def insertDescByScore (a : String × Nat) : List (String × Nat) → List (String × Nat)
  | [] => [a]
  | b :: bs => if b.2 ≤ a.2 then a :: b :: bs else b :: insertDescByScore a bs

/-- Model of Python's stable `list.sort(key=lambda x: x[1], reverse=True)`:
a stable sort by descending score (insertion sort, extensionally equal to any
stable descending sort and hence to CPython's timsort on this key). -/
def sortDescByScore : List (String × Nat) → List (String × Nat)
  | [] => []
  | a :: l => insertDescByScore a (sortDescByScore l)

/-- `extract_title_from_text` (`pdf_title_renamer.py:284-342`). -/
def extract_title_from_text (text : String) : Option String :=
  if text = "" then none
  else
    let ml := meaningful_lines text
    if ml.isEmpty then none
    else
      match sortDescByScore (candidate_titles text) with
      | c :: _ => some c.1
      | [] =>
        match (ml.take 5).find? (fun l => decide (15 < l.length) && !pyIsDigit l) with
        | some line => some line
        | none => ml.head?

/-! ### The document model and the resolution pipeline

The PyPDF2/pdfplumber I/O is abstracted into a `Document` record: the outcome
of opening the file with each library, the encryption state, the metadata
mapping, and the text pdfplumber yields for each geometric region (accumulated
over the first `min(3, pages)` pages exactly as `extract_title_from_content`
builds its `region_texts` buffers).  Exceptions raised by a library are
modelled as an error value carried by the document. -/

/-- Outcome of `PyPDF2.PdfReader`: a `PdfReadError` (caught as "corrupted") or
some other exception with message `msg` (caught as `str(e)`). -/
inductive PypdfErr where
  | readError : PypdfErr
  | other : String → PypdfErr
deriving DecidableEq

/-- Outcome of `pdfplumber.open`: a `PDFSyntaxError` (caught as "corrupted") or
some other exception with message `msg`. -/
inductive PlumberErr where
  | syntaxError : PlumberErr
  | other : String → PlumberErr
deriving DecidableEq

structure Document where
  /-- Exception raised while reading the file with PyPDF2, if any. -/
  pypdf_error : Option PypdfErr
  /-- `reader.is_encrypted`. -/
  is_encrypted : Bool
  /-- Whether `reader.decrypt('')` succeeds without raising. -/
  decrypt_ok : Bool
  /-- `reader.metadata` as an association list of field values
  (`none` models a falsy metadata object). -/
  metadata : Option (List (String × String))
  /-- Exception raised while opening the file with pdfplumber, if any. -/
  plumber_error : Option PlumberErr
  /-- The accumulated `region_texts` buffers, in dict insertion order
  full, header, content, footer. -/
  region_full : String
  region_header : String
  region_content : String
  region_footer : String
  /-- Whether `pdf.pages` is non-empty. -/
  has_pages : Bool
  /-- `pdf.pages[0].extract_text() or ''`. -/
  first_page_text : String
deriving DecidableEq

/-- `title_fields` (`pdf_title_renamer.py:171`). -/
def TITLE_FIELDS : List String := ["/Title", "/Subject", "/Topic", "/Keywords"]

/-- The placeholder values rejected by the metadata loop. -/
def PLACEHOLDER_TITLES : List String := ["", "untitled", "unnamed", "no title"]

/-- `reader.metadata.get(field, '')`. -/
def mdGet (md : List (String × String)) (f : String) : String :=
  (md.lookup f).getD ""

/-- The field loop of `extract_title_from_metadata`
(`pdf_title_renamer.py:171-177`): first field whose value is truthy,
non-placeholder after stripping and lower-casing, and whose stripped value
passes `validate_title` or whose field is `/Title`. -/
def metaTitleLoop (md : List (String × String)) : List String → Option String
  | [] => none
  | f :: fs =>
    let title := mdGet md f
    if title != "" && pyStrip title != "" &&
        !(PLACEHOLDER_TITLES.contains (pyLower (pyStrip title))) then
      let cleaned := pyStrip title
      if validate_title cleaned || f == "/Title" then some cleaned
      else metaTitleLoop md fs
    else metaTitleLoop md fs

/-- `extract_title_from_metadata` (`pdf_title_renamer.py:153-185`), returning
`(title, status)` where the status is `none` or an error string. -/
def extract_title_from_metadata (doc : Document) : Option String × Option String :=
  match doc.pypdf_error with
  | some .readError => (none, some "corrupted")
  | some (.other msg) => (none, some msg)
  | none =>
    if doc.is_encrypted && !doc.decrypt_ok then (none, some "encrypted")
    else
      match doc.metadata with
      | some md =>
        match metaTitleLoop md TITLE_FIELDS with
        | some t => (some t, none)
        | none => (none, none)
      | none => (none, none)

/-- One region attempt of `extract_title_from_content`
(`title = extract_title_from_text(...); if title and validate_title(title)`). -/
def valid_region_title (r : String) : Option String :=
  match extract_title_from_text r with
  | some title => if title != "" && validate_title title then some title else none
  | none => none

/-- The pooled lines of the low-confidence tier
(`pdf_title_renamer.py:260-267`): for each region buffer in dict order, the
stripped lines of length over 5. -/
def content_pool (doc : Document) : List String :=
  [doc.region_full, doc.region_header, doc.region_content, doc.region_footer].flatMap
    (fun rt =>
      if rt = "" then []
      else ((splitLines rt).map pyStrip).filter
        (fun l => !(l == "") && decide (5 < l.length)))

/-- Python's `max(lines, key=len)`: the first element of maximal length. -/
def pyMaxByLen : List String → Option String
  | [] => none
  | a :: rest =>
    some (rest.foldl (fun acc x => if x.length > acc.length then x else acc) a)

/-- `extract_title_from_content` (`pdf_title_renamer.py:187-282`), returning
`(title, status, institution)`. -/
def extract_title_from_content (doc : Document) :
    Option String × Option String × Option String :=
  match doc.plumber_error with
  | some .syntaxError => (none, some "corrupted", none)
  | some (.other msg) => (none, some msg, none)
  | none =>
    match valid_region_title doc.region_content with
    | some t => (some t, none, extract_institution doc.region_full)
    | none =>
    match valid_region_title doc.region_full with
    | some t => (some t, none, extract_institution doc.region_full)
    | none =>
    match valid_region_title doc.region_header with
    | some t => (some t, none, extract_institution doc.region_full)
    | none =>
    match valid_region_title doc.region_footer with
    | some t => (some t, none, extract_institution doc.region_full)
    | none =>
      if (content_pool doc).isEmpty then (none, some "no_title_found", none)
      else
        match pyMaxByLen (((content_pool doc).take 10).filter (fun l => !pyIsDigit l)) with
        | some m => (some m, some "low_confidence", extract_institution doc.region_full)
        | none => (none, some "no_title_found", none)

/-- `extract_title` (`pdf_title_renamer.py:344-382`), returning
`(title, status, institution)`. -/
def extract_title (doc : Document) : Option String × String × Option String :=
  if (extract_title_from_metadata doc).2 = some "encrypted" then (none, "encrypted", none)
  else if (extract_title_from_metadata doc).2 = some "corrupted" then (none, "corrupted", none)
  else
    match (extract_title_from_metadata doc).1 with
    | some t =>
      match doc.plumber_error with
      | none =>
        if doc.has_pages then (some t, "metadata", extract_institution doc.first_page_text)
        else (some t, "metadata", none)
      | some _ => (some t, "metadata", none)
    | none =>
      match extract_title_from_content doc with
      | (some t, cst, cinst) =>
        (some t,
         (match cst with
          | none => "content"
          | some s => if s = "" then "content" else s),
         cinst)
      | (none, _, _) => (none, "extraction_failed", none)

/-! ### `generate_paper_filename` and batch deduplication -/

/-- Model of Python's `str.strip('_')`. -/
def stripUnderscores (s : String) : String :=
  ⟨dropTrailingP (fun c => c = '_') (s.data.dropWhile (fun c => c = '_'))⟩

/-- `generate_paper_filename` (`pdf_title_renamer.py:454-480`).  The
`original_filename`, `text_content`, `year` and `author` parameters of the
source are unused by its body and are omitted.  `未知标题` is the source's
literal fallback for an empty title. -/
def generate_paper_filename (title : String) : String :=
  let title := if title = "" || pyStrip title = "" then "未知标题" else title
  let cleaned_title := sanitize_filename (pyStrip title)
  let filename := cleaned_title
  let max_length := MAX_TITLE_LENGTH - 4
  let filename :=
    if filename.length > max_length then pyTake cleaned_title max_length else filename
  let filename := stripUnderscores filename
  filename ++ ".pdf"

/-- Model of `os.path.splitext` for a bare file name: split before the last
period, unless every character before that period is itself a period. -/
def splitext (s : String) : String × String :=
  let r := s.data.reverse
  let ext_r := r.takeWhile (fun c => c ≠ '.')
  match r.dropWhile (fun c => c ≠ '.') with
  | [] => (s, "")
  | _ :: base_r =>
    if base_r.reverse.any (fun c => c ≠ '.') then
      (⟨base_r.reverse⟩, ⟨'.' :: ext_r.reverse⟩)
    else (s, "")

/-- One step of the duplicate-title handling in `rename_pdfs.process_directory`
(`pdf_title_renamer.py:634-641`): bump the global count for the generated
name and, from the second occurrence on, insert `_{count-1}` before the
extension. -/
def dedupStep (counts : String → Nat) (nf : String) : (String → Nat) × String :=
  let c := counts nf + 1
  let counts' := fun x => if x = nf then c else counts x
  if c > 1 then
    let be := splitext nf
    (counts', be.1 ++ "_" ++ toString (c - 1) ++ be.2)
  else (counts', nf)

def dedupNamesAux (counts : String → Nat) : List String → List String
  | [] => []
  | nf :: rest =>
    let s := dedupStep counts nf
    s.2 :: dedupNamesAux s.1 rest

/-- The sequence of final generated names produced when processing a run of
files whose generated filenames are `names`, threading the
`global_title_counts` table (a `defaultdict(int)`). -/
def dedupNames (names : List String) : List String :=
  dedupNamesAux (fun _ => 0) names

/-! ## Lemmas about the candidate scorer -/

/-- The head of the stable descending sort is the first element of the input
attaining the maximal score. -/
theorem sortDesc_head_first_argmax :
    ∀ l : List (String × Nat), l ≠ [] →
      ∃ c, (sortDescByScore l).head? = some c ∧ c ∈ l ∧ (∀ d ∈ l, d.2 ≤ c.2) ∧
        l.find? (fun d => decide (c.2 ≤ d.2)) = some c := by
  intro l
  induction l with
  | nil => intro h; exact absurd rfl h
  | cons a l ih =>
    intro _
    cases l with
    | nil =>
      refine ⟨a, rfl, List.mem_singleton.mpr rfl, ?_, ?_⟩
      · intro d hd; rw [List.mem_singleton] at hd; subst hd; exact le_refl _
      · rw [List.find?_cons_of_pos _ (by simp)]
    | cons b l' =>
      obtain ⟨c', h1, h2, h3, h4⟩ := ih (by simp)
      obtain ⟨rest, hrest⟩ : ∃ rest, sortDescByScore (b :: l') = c' :: rest := by
        cases hs : sortDescByScore (b :: l') with
        | nil => rw [hs] at h1; simp at h1
        | cons x xs =>
          rw [hs] at h1
          simp only [List.head?_cons, Option.some.injEq] at h1
          exact ⟨xs, by rw [h1]⟩
      by_cases hc : c'.2 ≤ a.2
      · refine ⟨a, ?_, List.mem_cons_self a _, ?_, ?_⟩
        · show (insertDescByScore a (sortDescByScore (b :: l'))).head? = some a
          rw [hrest]; simp [insertDescByScore, hc]
        · intro d hd
          rcases List.mem_cons.mp hd with h | h
          · subst h; exact le_refl _
          · exact le_trans (h3 d h) hc
        · rw [List.find?_cons_of_pos _ (by simp)]
      · push_neg at hc
        refine ⟨c', ?_, List.mem_cons_of_mem _ h2, ?_, ?_⟩
        · show (insertDescByScore a (sortDescByScore (b :: l'))).head? = some c'
          rw [hrest]; simp [insertDescByScore, not_le.mpr hc]
        · intro d hd
          rcases List.mem_cons.mp hd with h | h
          · subst h; exact le_of_lt hc
          · exact h3 d h
        · rw [List.find?_cons_of_neg _ (by simp [not_le.mpr hc])]
          exact h4

/-- Anatomy of a member of the candidate list: it is one of the first 10
meaningful lines, not excluded, passes the pre-filter, and carries its
`score_line` value. -/
theorem mem_candidate_titles {text : String} {c : String × Nat}
    (h : c ∈ candidate_titles text) :
    c.1 ∈ (meaningful_lines text).take 10 ∧ is_excluded_line c.1 = false ∧
      3 ≤ (pyWords c.1).length ∧ 10 < c.1.length ∧ c.2 = score_line c.1 := by
  unfold candidate_titles at h
  obtain ⟨line, hline, hf⟩ := List.mem_filterMap.mp h
  by_cases hex : is_excluded_line line = true
  · rw [if_pos hex] at hf; exact absurd hf (by simp)
  · rw [if_neg hex] at hf
    by_cases hw : (decide (3 ≤ (pyWords line).length) && decide (10 < line.length)) = true
    · rw [if_pos hw] at hf
      have hlc : (line, score_line line) = c := Option.some.inj hf
      subst hlc
      simp only [Bool.and_eq_true, decide_eq_true_eq] at hw
      exact ⟨hline, Bool.eq_false_iff.mpr hex, hw.1, hw.2, rfl⟩
    · rw [if_neg hw] at hf; exact absurd hf (by simp)

/-- Every meaningful line is non-empty and longer than 3 characters. -/
theorem mem_meaningful_lines {text : String} {l : String}
    (h : l ∈ meaningful_lines text) : l ≠ "" ∧ 3 < l.length := by
  unfold meaningful_lines at h
  have h2 := (List.mem_filter.mp h).2
  simp only [Bool.and_eq_true, Bool.not_eq_true', beq_eq_false_iff_ne, ne_eq,
    decide_eq_true_eq] at h2
  exact h2

/-- If the candidate list is non-empty, `extract_title_from_text` returns the
first component of the head of the stable descending sort. -/
theorem extract_title_from_text_of_sorted {text : String} {c : String × Nat}
    {rest : List (String × Nat)}
    (hrest : sortDescByScore (candidate_titles text) = c :: rest) :
    extract_title_from_text text = some c.1 := by
  have hc : candidate_titles text ≠ [] := by
    intro he; rw [he] at hrest; exact absurd hrest (by simp [sortDescByScore])
  have htext : text ≠ "" := by
    intro he; subst he; exact hc (by decide)
  have hml : (meaningful_lines text).isEmpty = false := by
    cases hm : meaningful_lines text with
    | nil =>
      exfalso; apply hc
      unfold candidate_titles; rw [hm]; rfl
    | cons x xs => rfl
  unfold extract_title_from_text
  rw [if_neg htext]
  simp only [hml, Bool.false_eq_true, if_false, hrest]

/-- C2: among the first 10 considered (meaningful) lines, the non-excluded
candidate lines receive the additive score of `score_line`, and the scorer
returns a candidate of maximal score, the earliest such candidate in scanned
order (determinism is inherent: the embedding is a function of the text). -/
theorem c2_scoring_stable_max (text : String) (h : candidate_titles text ≠ []) :
    ∃ c : String × Nat,
      extract_title_from_text text = some c.1 ∧
      c ∈ candidate_titles text ∧
      c.2 = score_line c.1 ∧
      (∀ d ∈ candidate_titles text, d.2 ≤ c.2) ∧
      (candidate_titles text).find? (fun d => decide (c.2 ≤ d.2)) = some c := by
  obtain ⟨c, hhead, hmem, hbound, hfind⟩ := sortDesc_head_first_argmax _ h
  obtain ⟨rest, hrest⟩ : ∃ rest, sortDescByScore (candidate_titles text) = c :: rest := by
    cases hs : sortDescByScore (candidate_titles text) with
    | nil => rw [hs] at hhead; simp at hhead
    | cons x xs =>
      rw [hs] at hhead
      simp only [List.head?_cons, Option.some.injEq] at hhead
      exact ⟨xs, by rw [hhead]⟩
  exact ⟨c, extract_title_from_text_of_sorted hrest, hmem,
    (mem_candidate_titles hmem).2.2.2.2, hbound, hfind⟩

/-- Witness for C2 on a concrete two-line text whose two candidates tie with
score 4: the earliest line is selected. -/
theorem c2_scoring_stable_max_witness :
    candidate_titles "Great Results Shown Here Now\nOther Valid Words Shown Here" ≠ [] ∧
    (∃ c : String × Nat,
      extract_title_from_text
          "Great Results Shown Here Now\nOther Valid Words Shown Here" = some c.1 ∧
      c ∈ candidate_titles "Great Results Shown Here Now\nOther Valid Words Shown Here" ∧
      c.2 = score_line c.1 ∧
      (∀ d ∈ candidate_titles "Great Results Shown Here Now\nOther Valid Words Shown Here",
        d.2 ≤ c.2) ∧
      (candidate_titles "Great Results Shown Here Now\nOther Valid Words Shown Here").find?
          (fun d => decide (c.2 ≤ d.2)) = some c) ∧
    extract_title_from_text "Great Results Shown Here Now\nOther Valid Words Shown Here" =
      some "Great Results Shown Here Now" :=
  ⟨by decide, c2_scoring_stable_max _ (by decide), by decide⟩

/-- C10: a line enters the candidate list only if it has at least 3 words and
length over 10; the scoring stage only ever selects a member of the candidate
list; and only stripped lines of length over 3 are considered at all. -/
theorem c10_prefilter (text : String) :
    (∀ c ∈ candidate_titles text,
        3 ≤ (pyWords c.1).length ∧ 10 < c.1.length ∧
        c.1 ∈ (meaningful_lines text).take 10) ∧
    (∀ l ∈ meaningful_lines text, l ≠ "" ∧ 3 < l.length) ∧
    (candidate_titles text ≠ [] →
      ∃ c ∈ candidate_titles text, extract_title_from_text text = some c.1) := by
  refine ⟨?_, ?_, ?_⟩
  · intro c hc
    have h := mem_candidate_titles hc
    exact ⟨h.2.2.1, h.2.2.2.1, h.1⟩
  · intro l hl; exact mem_meaningful_lines hl
  · intro h
    obtain ⟨c, hhead, hmem, _, _⟩ := sortDesc_head_first_argmax _ h
    obtain ⟨rest, hrest⟩ : ∃ rest, sortDescByScore (candidate_titles text) = c :: rest := by
      cases hs : sortDescByScore (candidate_titles text) with
      | nil => rw [hs] at hhead; simp at hhead
      | cons x xs =>
        rw [hs] at hhead
        simp only [List.head?_cons, Option.some.injEq] at hhead
        exact ⟨xs, by rw [hhead]⟩
    exact ⟨c, hmem, extract_title_from_text_of_sorted hrest⟩

/-- Witness for C10: a line of 2 words ("OnlyTwo WordsHereNow", length 20,
which the four criteria would score) is never selected; the candidate
"a sound theory of parsing" is. -/
theorem c10_prefilter_witness :
    (∀ c ∈ candidate_titles "OnlyTwo WordsHereNow\na sound theory of parsing",
        3 ≤ (pyWords c.1).length ∧ 10 < c.1.length ∧
        c.1 ∈ (meaningful_lines "OnlyTwo WordsHereNow\na sound theory of parsing").take 10) ∧
    (∀ l ∈ meaningful_lines "OnlyTwo WordsHereNow\na sound theory of parsing",
        l ≠ "" ∧ 3 < l.length) ∧
    (candidate_titles "OnlyTwo WordsHereNow\na sound theory of parsing" ≠ [] →
      ∃ c ∈ candidate_titles "OnlyTwo WordsHereNow\na sound theory of parsing",
        extract_title_from_text "OnlyTwo WordsHereNow\na sound theory of parsing" = some c.1) ∧
    extract_title_from_text "OnlyTwo WordsHereNow\na sound theory of parsing" =
      some "a sound theory of parsing" :=
  ⟨(c10_prefilter _).1, (c10_prefilter _).2.1, (c10_prefilter _).2.2, by decide⟩

/-- C6 counterexample: in the text
`"Introduction to the abstract\naaaa bbbb cc"` no line scores positively (the
first line is excluded by the marker "introduction" and so is never scored,
the second scores 0), the claim's fallback would return the excluded long
first line, but the code returns the zero-score candidate
"aaaa bbbb cc" from the scoring stage. -/
theorem c6_counterexample :
    (∀ l ∈ (meaningful_lines "Introduction to the abstract\naaaa bbbb cc").take 10,
        is_excluded_line l = false → score_line l = 0) ∧
    ((meaningful_lines "Introduction to the abstract\naaaa bbbb cc").take 5).find?
        (fun l => decide (15 < l.length) && !pyIsDigit l) =
      some "Introduction to the abstract" ∧
    extract_title_from_text "Introduction to the abstract\naaaa bbbb cc" =
      some "aaaa bbbb cc" ∧
    ("aaaa bbbb cc" : String) ≠ "Introduction to the abstract" := by decide

/-- C6 amended: the fallback applies exactly when the candidate list is empty
(no non-excluded line among the first 10 considered lines has ≥ 3 words and
length > 10), and then the scorer returns the first of the first 5 considered
lines with length over 15 that is not purely numeric, else the first
considered line. -/
theorem c6_fallback_amended (text : String) (h : candidate_titles text = []) :
    extract_title_from_text text =
      (((meaningful_lines text).take 5).find?
          (fun l => decide (15 < l.length) && !pyIsDigit l)).or
        (meaningful_lines text).head? := by
  by_cases htext : text = ""
  · subst htext; decide
  · cases hm : meaningful_lines text with
    | nil =>
      unfold extract_title_from_text
      rw [if_neg htext, hm]
      rfl
    | cons x xs =>
      unfold extract_title_from_text
      rw [if_neg htext]
      simp only [hm, List.isEmpty_cons, Bool.false_eq_true, if_false, h,
        sortDescByScore]
      cases hf : ((x :: xs).take 5).find? (fun l => decide (15 < l.length) && !pyIsDigit l) with
      | none => simp [Option.or]
      | some line => simp [Option.or]

/-- Witness for C6 (amended): a text with no candidates falls through to the
first considered line. -/
theorem c6_fallback_amended_witness :
    candidate_titles "short one\n42" = [] ∧
    extract_title_from_text "short one\n42" =
      (((meaningful_lines "short one\n42").take 5).find?
          (fun l => decide (15 < l.length) && !pyIsDigit l)).or
        (meaningful_lines "short one\n42").head? ∧
    extract_title_from_text "short one\n42" = some "short one" :=
  ⟨by decide, c6_fallback_amended _ (by decide), by decide⟩

/-! ## Lemmas about the resolution pipeline -/

/-- The acceptance condition of the metadata field loop, as one predicate:
truthy value, non-placeholder after stripping and lower-casing, and
(valid or the `/Title` field). -/
def acceptable_meta_field (f v : String) : Bool :=
  (v != "" && pyStrip v != "" && !(PLACEHOLDER_TITLES.contains (pyLower (pyStrip v)))) &&
    (validate_title (pyStrip v) || f == "/Title")

/-- The metadata field loop returns the stripped value of the first field in
priority order that is acceptable. -/
theorem metaTitleLoop_eq_find (fs : List String) (md : List (String × String)) :
    metaTitleLoop md fs =
      (fs.find? (fun f => acceptable_meta_field f (mdGet md f))).map
        (fun f => pyStrip (mdGet md f)) := by
  induction fs with
  | nil => rfl
  | cons f fs ih =>
    unfold metaTitleLoop
    by_cases hc : (mdGet md f != "" && pyStrip (mdGet md f) != "" &&
        !(PLACEHOLDER_TITLES.contains (pyLower (pyStrip (mdGet md f))))) = true
    · by_cases hv : (validate_title (pyStrip (mdGet md f)) || f == "/Title") = true
      · rw [if_pos hc, if_pos hv,
          List.find?_cons_of_pos _ (by simp only [acceptable_meta_field, hc, hv]; rfl)]
        rfl
      · rw [if_pos hc, if_neg hv,
          List.find?_cons_of_neg _
            (by simp only [acceptable_meta_field, hc,
              Bool.eq_false_iff.mpr hv, Bool.and_false]; simp)]
        exact ih
    · rw [if_neg hc,
        List.find?_cons_of_neg _
          (by simp only [acceptable_meta_field, Bool.eq_false_iff.mpr hc,
            Bool.false_and]; simp)]
      exact ih

/-- C1: for a readable, non-short-circuiting document with a metadata mapping,
if some field in the fixed priority order `/Title`, `/Subject`, `/Topic`,
`/Keywords` is acceptable, the pipeline returns the stripped value of the
first such field with status `metadata` — for every possible content of the
page regions, i.e. without consulting the content tier. -/
theorem c1_metadata_first_field (doc : Document) (md : List (String × String))
    (f : String)
    (hopen : doc.pypdf_error = none)
    (henc : doc.is_encrypted = false ∨ doc.decrypt_ok = true)
    (hmd : doc.metadata = some md)
    (hfind : TITLE_FIELDS.find? (fun g => acceptable_meta_field g (mdGet md g)) = some f) :
    (extract_title doc).1 = some (pyStrip (mdGet md f)) ∧
    (extract_title doc).2.1 = "metadata" := by
  have hflag : (doc.is_encrypted && !doc.decrypt_ok) = false := by
    rcases henc with h | h <;> simp [h]
  have hmeta : extract_title_from_metadata doc = (some (pyStrip (mdGet md f)), none) := by
    unfold extract_title_from_metadata
    rw [hopen]
    simp only [hflag, Bool.false_eq_true, if_false, hmd]
    rw [metaTitleLoop_eq_find, hfind]
    rfl
  unfold extract_title
  rw [hmeta]
  simp only [Option.some.injEq, reduceCtorEq, if_false]
  cases hpl : doc.plumber_error with
  | none => cases hhp : doc.has_pages <;> simp
  | some e => simp

/-- Witness for C1: a document whose `/Title` field is empty and whose
`/Subject` field holds a valid title. -/
theorem c1_metadata_first_field_witness :
    TITLE_FIELDS.find?
        (fun g => acceptable_meta_field g (mdGet [("/Subject", " A study of things ")] g)) =
      some "/Subject" ∧
    ((extract_title
        ⟨none, false, true, some [("/Subject", " A study of things ")],
          none, "ignored regions", "", "", "", false, ""⟩).1 =
      some (pyStrip (mdGet [("/Subject", " A study of things ")] "/Subject")) ∧
    (extract_title
        ⟨none, false, true, some [("/Subject", " A study of things ")],
          none, "ignored regions", "", "", "", false, ""⟩).2.1 = "metadata") ∧
    pyStrip (mdGet [("/Subject", " A study of things ")] "/Subject") = "A study of things" :=
  ⟨by decide,
   c1_metadata_first_field _ _ _ rfl (Or.inl rfl) rfl (by decide),
   by decide⟩

/-- C3: an encrypted document whose empty-password decryption fails makes the
pipeline return `(none, "encrypted", none)` — for every possible content of
the page regions, i.e. without any region scanning or low-confidence pooling. -/
theorem c3_encrypted_short_circuit (doc : Document)
    (hopen : doc.pypdf_error = none)
    (henc : doc.is_encrypted = true) (hdec : doc.decrypt_ok = false) :
    extract_title doc = (none, "encrypted", none) := by
  have hmeta : extract_title_from_metadata doc = (none, some "encrypted") := by
    unfold extract_title_from_metadata
    rw [hopen]
    simp [henc, hdec]
  unfold extract_title
  rw [hmeta]
  simp

/-- Witness for C3: a concrete encrypted document with non-trivial region
text is still mapped to `(none, "encrypted", none)`. -/
theorem c3_encrypted_short_circuit_witness :
    extract_title
        ⟨none, true, false, some [("/Title", "A study of things")],
          none, "full text", "head", "A systems analysis method body", "foot",
          true, "page one"⟩ =
      (none, "encrypted", none) :=
  c3_encrypted_short_circuit _ rfl rfl rfl

/-- C4: when pdfplumber opens the document and no region yields a valid
candidate, the low-confidence tier pools the stripped lines of length over 5
across all regions (in dict order full, header, content, footer), takes the
first 10, drops purely numeric lines, and returns the first longest remaining
line with status `low_confidence` and no validity check; an empty pool gives
`no_title_found`. -/
theorem c4_low_confidence_pool (doc : Document)
    (hpl : doc.plumber_error = none)
    (h1 : valid_region_title doc.region_content = none)
    (h2 : valid_region_title doc.region_full = none)
    (h3 : valid_region_title doc.region_header = none)
    (h4 : valid_region_title doc.region_footer = none) :
    (∀ l ∈ content_pool doc, 5 < l.length) ∧
    (content_pool doc = [] →
      extract_title_from_content doc = (none, some "no_title_found", none)) ∧
    (∀ m, pyMaxByLen (((content_pool doc).take 10).filter (fun l => !pyIsDigit l)) = some m →
      extract_title_from_content doc =
        (some m, some "low_confidence", extract_institution doc.region_full)) := by
  refine ⟨?_, ?_, ?_⟩
  · intro l hl
    unfold content_pool at hl
    obtain ⟨rt, _, hl⟩ := List.mem_flatMap.mp hl
    by_cases hrt : rt = ""
    · rw [if_pos hrt] at hl; exact absurd hl (by simp)
    · rw [if_neg hrt] at hl
      have hcond := (List.mem_filter.mp hl).2
      simp only [Bool.and_eq_true, decide_eq_true_eq] at hcond
      exact hcond.2
  · intro hpool
    unfold extract_title_from_content
    rw [hpl]
    simp only [h1, h2, h3, h4, hpool, List.isEmpty_nil, if_true]
  · intro m hm
    have hpool : (content_pool doc).isEmpty = false := by
      cases hp : content_pool doc with
      | nil => rw [hp] at hm; exact absurd hm (by simp [pyMaxByLen])
      | cons x xs => rfl
    unfold extract_title_from_content
    rw [hpl]
    simp only [h1, h2, h3, h4, hpool, Bool.false_eq_true, if_false, hm]

/-- Witness for C4: a document whose only region text is
`"12345678\nhello w"`; no region candidate is valid, the digit line is dropped
from the pool, and `"hello w"` is returned as a low-confidence title even
though it fails `validate_title`. -/
theorem c4_low_confidence_pool_witness :
    extract_title_from_content
        ⟨none, false, true, none, none, "12345678\nhello w", "", "", "", false, ""⟩ =
      (some "hello w", some "low_confidence", extract_institution "12345678\nhello w") ∧
    validate_title "hello w" = false ∧
    extract_institution "12345678\nhello w" = none :=
  ⟨(c4_low_confidence_pool _ rfl (by decide) (by decide) (by decide) (by decide)).2.2
      "hello w" (by decide),
   by decide, by decide⟩

/-- A title produced by the content tier comes with status `none` (a region
candidate) or `"low_confidence"` (the pooled fallback). -/
theorem content_status_of_some {doc : Document} {t : String} {st inst : Option String}
    (h : extract_title_from_content doc = (some t, st, inst)) :
    st = none ∨ st = some "low_confidence" := by
  unfold extract_title_from_content at h
  split at h
  · simp at h
  · simp at h
  · split at h
    · simp only [Prod.mk.injEq] at h; exact Or.inl h.2.1.symm
    · split at h
      · simp only [Prod.mk.injEq] at h; exact Or.inl h.2.1.symm
      · split at h
        · simp only [Prod.mk.injEq] at h; exact Or.inl h.2.1.symm
        · split at h
          · simp only [Prod.mk.injEq] at h; exact Or.inl h.2.1.symm
          · split at h
            · simp at h
            · split at h
              · simp only [Prod.mk.injEq] at h; exact Or.inr h.2.1.symm
              · simp at h

/-- C5: the pipeline's result carries a title exactly when the status is one
of `metadata`, `content`, `low_confidence`. -/
theorem c5_title_iff_status (doc : Document) :
    (extract_title doc).1.isSome = true ↔
      (extract_title doc).2.1 ∈ (["metadata", "content", "low_confidence"] : List String) := by
  unfold extract_title
  split
  · decide
  · split
    · decide
    · split
      · rename_i t _
        cases hpl : doc.plumber_error with
        | none => cases hhp : doc.has_pages <;> simp
        | some e => simp
      · split
        · rename_i t cst cinst heq
          rcases content_status_of_some heq with hst | hst <;> subst hst <;> simp
        · decide

/-! ## Lemmas about deduplication -/

/-- Positional description of the deduplication fold, for an arbitrary initial
count table: the `i`-th output name carries the suffix `_{k-1}` where `k` is
the table count plus the number of occurrences of the name up to and
including position `i`. -/
theorem dedupNamesAux_getElem? :
    ∀ (names : List String) (counts : String → Nat) (i : Nat) (nf : String),
      names[i]? = some nf →
      (dedupNamesAux counts names)[i]? =
        some
          (if counts nf + (names.take (i + 1)).count nf ≤ 1 then nf
           else
             (splitext nf).1 ++ "_" ++
               toString (counts nf + (names.take (i + 1)).count nf - 1) ++ (splitext nf).2) := by
  intro names
  induction names with
  | nil => intro counts i nf h; simp at h
  | cons a rest ih =>
    intro counts i nf h
    cases i with
    | zero =>
      have ha : a = nf := by simpa using h
      subst ha
      have hcount : ((a :: rest).take 1).count a = 1 := by
        simp [List.take_succ_cons, List.count_cons]
      rw [hcount]
      show ((dedupStep counts a).2 :: dedupNamesAux (dedupStep counts a).1 rest)[0]? = _
      unfold dedupStep
      by_cases hca : counts a + 1 > 1
      · rw [if_pos hca]
        simp only [List.getElem?_cons_zero, Option.some.injEq]
        rw [if_neg (by omega)]
      · rw [if_neg hca]
        simp only [List.getElem?_cons_zero, Option.some.injEq]
        rw [if_pos (by omega)]
    | succ i =>
      have h' : rest[i]? = some nf := by simpa using h
      show ((dedupStep counts a).2 :: dedupNamesAux (dedupStep counts a).1 rest)[i + 1]? = _
      rw [List.getElem?_cons_succ, ih (dedupStep counts a).1 i nf h']
      have hk : (dedupStep counts a).1 nf + (rest.take (i + 1)).count nf
          = counts nf + ((a :: rest).take (i + 1 + 1)).count nf := by
        have hfst : (dedupStep counts a).1 =
            fun x => if x = a then counts a + 1 else counts x := by
          unfold dedupStep
          by_cases hca : counts a + 1 > 1
          · rw [if_pos hca]
          · rw [if_neg hca]
        rw [hfst, List.take_succ_cons]
        by_cases hx : nf = a
        · subst hx; simp [List.count_cons]; omega
        · simp [hx, List.count_cons, Ne.symm hx]
      rw [hk]

/-- C8: in any processed run, the occurrence number `k` of a generated
filename at position `i` (counted over the whole run so far, across the global
table) determines the final name: the first occurrence keeps the name, every
later one gets `_{k-1}` inserted before the extension. -/
theorem c8_dedup_count_suffix (names : List String) (i : Nat) (nf : String)
    (h : names[i]? = some nf) :
    (dedupNames names)[i]? =
      some
        (if (names.take (i + 1)).count nf ≤ 1 then nf
         else
           (splitext nf).1 ++ "_" ++ toString ((names.take (i + 1)).count nf - 1) ++
             (splitext nf).2) := by
  have h0 := dedupNamesAux_getElem? names (fun _ => 0) i nf h
  simpa using h0

/-- Witness for C8: three documents resolving to "A.pdf" become
"A.pdf", "A_1.pdf", "A_2.pdf". -/
theorem c8_dedup_count_suffix_witness :
    (["A.pdf", "A.pdf", "A.pdf"] : List String)[2]? = some "A.pdf" ∧
    (dedupNames ["A.pdf", "A.pdf", "A.pdf"])[2]? = some "A_2.pdf" ∧
    dedupNames ["A.pdf", "A.pdf", "A.pdf"] = ["A.pdf", "A_1.pdf", "A_2.pdf"] := by
  refine ⟨rfl, ?_, by decide⟩
  have h := c8_dedup_count_suffix ["A.pdf", "A.pdf", "A.pdf"] 2 "A.pdf" rfl
  rw [h]
  decide

/-! ## The filename builder and its fallback labels -/

/-- Python's `string.punctuation` (used only to state the punctuation-only
property of the spec; the braces and the backtick are written with `\xHH`
escapes). -/
def PUNCTUATION_CHARS : List Char :=
  ['!', '\"', '#', '$', '%', '&', '\'', '(', ')', '*', '+', ',', '-', '.', '/',
   ':', ';', '<', '=', '>', '?', '@', '[', '\\', ']', '^', '_', '\x60', '\x7b',
   '|', '\x7d', '~']

/-- C9 counterexample: the raw title `"___"` sanitizes to `"___"`, which
consists purely of punctuation characters, yet the filename builder does not
map it to a fallback label: stripping underscores leaves an *empty* base name
and the generated filename is just `".pdf"`. -/
theorem c9_counterexample :
    sanitize_filename "___" = "___" ∧
    ("___" : String).data.all (fun c => PUNCTUATION_CHARS.contains c) = true ∧
    generate_paper_filename "___" = ".pdf" ∧
    (".pdf" : String) ≠ "未命名.pdf" ∧ (".pdf" : String) ≠ "未知标题.pdf" := by
  decide

/-- C9 amended: the builder maps an empty or whitespace-only raw title to the
fixed label `未知标题`, and a title whose sanitized form collapses to the
sanitizer fallback (empty or a lone period, reported as `未命名`) to the fixed
label `未命名`; other punctuation-only sanitized results are kept verbatim and
underscore stripping may even leave an empty base name. -/
theorem c9_fallback_amended (title : String) :
    (title = "" ∨ pyStrip title = "" → generate_paper_filename title = "未知标题.pdf") ∧
    (¬(title = "" ∨ pyStrip title = "") →
      sanitize_filename (pyStrip title) = "未命名" →
      generate_paper_filename title = "未命名.pdf") := by
  constructor
  · intro h
    have hcond : (decide (title = "") || decide (pyStrip title = "")) = true := by
      rcases h with h | h <;> simp [h]
    unfold generate_paper_filename
    simp only [hcond, if_true]
    decide
  · intro h hs
    push_neg at h
    have hcond : (decide (title = "") || decide (pyStrip title = "")) = false := by
      simp [h.1, h.2]
    unfold generate_paper_filename
    simp only [hcond, Bool.false_eq_true, if_false, hs]
    decide

/-- Witness for C9 (amended): a whitespace-only title and a title that
sanitizes to nothing. -/
theorem c9_fallback_amended_witness :
    generate_paper_filename "   " = "未知标题.pdf" ∧
    generate_paper_filename "?" = "未命名.pdf" :=
  ⟨(c9_fallback_amended "   ").1 (Or.inr (by decide)),
   (c9_fallback_amended "?").2 (by decide) (by decide)⟩

/-! ## Sanitizer idempotence (C7)

The sanitizer is *not* idempotent: truncation at the 150-character cap can cut
the string right after a word, leaving a trailing space that a second
application strips.  The development below first exhibits this
counterexample, then proves idempotence for every input whose normalized form
(before truncation) fits the cap.  The proof tracks four structural
invariants of sanitized text: all whitespace is a single space, no two
adjacent whitespace characters, no whitespace adjacent to a period, and no
leading/trailing whitespace. -/

/-- C7 counterexample: `"a a … a "` (76 repetitions of `"a "`, 152
characters) sanitizes to a 150-character string ending in a space — the
truncation reintroduced a trailing space — so a second sanitization strips it
and yields a different, 149-character string. -/
theorem c7_counterexample :
    sanitize_filename (sanitize_filename (String.mk ((List.replicate 76 ['a', ' ']).flatten))) ≠
      sanitize_filename (String.mk ((List.replicate 76 ['a', ' ']).flatten)) := by
  set_option maxRecDepth 4000 in decide

/-- A character is *good* when it is none of the illegal-character keys. -/
def goodChar (c : Char) : Bool := decide (c ∉ ILLEGAL_CHARS.map Prod.fst)

/-- All adjacent pairs of the list satisfy `P`. -/
def adjOK (P : Char → Char → Bool) : List Char → Bool
  | [] => true
  | [_] => true
  | a :: b :: t => P a b && adjOK P (b :: t)

/-- No two adjacent whitespace characters. -/
def noWsPair (a b : Char) : Bool := !(isWs a && isWs b)

/-- No two adjacent whitespace characters, and no whitespace next to a
period. -/
def dotAdjFree (a b : Char) : Bool :=
  !(isWs a && isWs b) && !(isWs a && b == '.') && !(a == '.' && isWs b)

/-- Every whitespace character in the list is a plain space. -/
def allWsSpace (l : List Char) : Bool := l.all (fun c => !isWs c || c == ' ')

/-- The list does not start with whitespace. -/
def noLeadWs : List Char → Bool
  | [] => true
  | c :: _ => !isWs c

/-- The list does not end with whitespace. -/
def noTrailWs : List Char → Bool
  | [] => true
  | [c] => !isWs c
  | _ :: c :: cs => noTrailWs (c :: cs)

theorem adjOK_cons_elim {P : Char → Char → Bool} {a : Char} {l : List Char}
    (h : adjOK P (a :: l) = true) : adjOK P l = true := by
  cases l with
  | nil => rfl
  | cons b t => rw [adjOK, Bool.and_eq_true] at h; exact h.2

theorem adjOK_cons_intro {P : Char → Char → Bool} {a : Char} {l : List Char}
    (h1 : ∀ b, l.head? = some b → P a b = true) (h2 : adjOK P l = true) :
    adjOK P (a :: l) = true := by
  cases l with
  | nil => rfl
  | cons b t =>
    show (P a b && adjOK P (b :: t)) = true
    rw [Bool.and_eq_true]
    exact ⟨h1 b rfl, h2⟩

theorem adjOK_head_pair {P : Char → Char → Bool} {a : Char} {l : List Char}
    (h : adjOK P (a :: l) = true) : ∀ b, l.head? = some b → P a b = true := by
  intro b hb
  cases l with
  | nil => simp at hb
  | cons x t =>
    simp only [List.head?_cons, Option.some.injEq] at hb
    subst hb
    rw [adjOK, Bool.and_eq_true] at h
    exact h.1

theorem adjOK_append_left {P : Char → Char → Bool} :
    ∀ {l₁ l₂ : List Char}, adjOK P (l₁ ++ l₂) = true → adjOK P l₁ = true := by
  intro l₁
  induction l₁ with
  | nil => intro l₂ _; rfl
  | cons a rest ih =>
    intro l₂ h
    cases rest with
    | nil => rfl
    | cons b t =>
      have hp : P a b = true := adjOK_head_pair h b rfl
      exact adjOK_cons_intro (fun x hx => by
          simp only [List.head?_cons, Option.some.injEq] at hx; subst hx; exact hp)
        (ih (adjOK_cons_elim h))

theorem adjOK_dropWhile {P : Char → Char → Bool} {q : Char → Bool} :
    ∀ {l : List Char}, adjOK P l = true → adjOK P (l.dropWhile q) = true := by
  intro l
  induction l with
  | nil => intro _; rfl
  | cons a rest ih =>
    intro h
    by_cases hq : q a = true
    · rw [List.dropWhile_cons_of_pos hq]
      exact ih (adjOK_cons_elim h)
    · rw [List.dropWhile_cons_of_neg hq]
      exact h

theorem dropTrailingP_prefix (q : Char → Bool) :
    ∀ l : List Char, ∃ t, l = dropTrailingP q l ++ t := by
  intro l
  induction l with
  | nil => exact ⟨[], rfl⟩
  | cons c cs ih =>
    obtain ⟨t, ht⟩ := ih
    by_cases hc : ((dropTrailingP q cs).isEmpty && q c) = true
    · refine ⟨c :: cs, ?_⟩
      have he : dropTrailingP q (c :: cs) = [] := by
        simp only [dropTrailingP]
        rw [if_pos hc]
      rw [he, List.nil_append]
    · refine ⟨t, ?_⟩
      have he : dropTrailingP q (c :: cs) = c :: dropTrailingP q cs := by
        simp only [dropTrailingP]
        rw [if_neg hc]
      rw [he, List.cons_append, ← ht]

theorem adjOK_dropTrailingP {P : Char → Char → Bool} {q : Char → Bool}
    {l : List Char} (h : adjOK P l = true) : adjOK P (dropTrailingP q l) = true := by
  obtain ⟨t, ht⟩ := dropTrailingP_prefix q l
  rw [ht] at h
  exact adjOK_append_left h

theorem mem_dropTrailingP {q : Char → Bool} {l : List Char} {x : Char}
    (h : x ∈ dropTrailingP q l) : x ∈ l := by
  obtain ⟨t, ht⟩ := dropTrailingP_prefix q l
  rw [ht]
  exact List.mem_append_left _ h

theorem mem_dropWhile {q : Char → Bool} :
    ∀ {l : List Char} {x : Char}, x ∈ l.dropWhile q → x ∈ l := by
  intro l
  induction l with
  | nil => intro x h; simp at h
  | cons a rest ih =>
    intro x h
    by_cases hq : q a = true
    · rw [List.dropWhile_cons_of_pos hq] at h
      exact List.mem_cons_of_mem _ (ih h)
    · rw [List.dropWhile_cons_of_neg hq] at h
      exact h

/-- Characters of `collapseWsAux` output: a space, or a non-whitespace input
character. -/
theorem mem_collapseWsAux :
    ∀ {l : List Char} {b : Bool} {x : Char}, x ∈ collapseWsAux b l →
      x = ' ' ∨ (x ∈ l ∧ isWs x = false) := by
  intro l
  induction l with
  | nil => intro b x h; simp [collapseWsAux] at h
  | cons c cs ih =>
    intro b x h
    by_cases hw : isWs c = true
    · cases b with
      | true =>
        rw [show collapseWsAux true (c :: cs)
            = if isWs c then collapseWsAux true cs
              else c :: collapseWsAux false cs from rfl, if_pos hw] at h
        rcases ih h with h1 | h1
        · exact Or.inl h1
        · exact Or.inr ⟨List.mem_cons_of_mem _ h1.1, h1.2⟩
      | false =>
        rw [show collapseWsAux false (c :: cs)
            = if isWs c then ' ' :: collapseWsAux true cs
              else c :: collapseWsAux false cs from rfl, if_pos hw] at h
        simp only [List.mem_cons] at h
        rcases h with h | h
        · exact Or.inl h
        · rcases ih h with h1 | h1
          · exact Or.inl h1
          · exact Or.inr ⟨List.mem_cons_of_mem _ h1.1, h1.2⟩
    · have he : collapseWsAux b (c :: cs) = c :: collapseWsAux false cs := by
        cases b with
        | true =>
          rw [show collapseWsAux true (c :: cs)
              = if isWs c then collapseWsAux true cs
                else c :: collapseWsAux false cs from rfl, if_neg hw]
        | false =>
          rw [show collapseWsAux false (c :: cs)
              = if isWs c then ' ' :: collapseWsAux true cs
                else c :: collapseWsAux false cs from rfl, if_neg hw]
      rw [he] at h
      simp only [List.mem_cons] at h
      rcases h with h | h
      · subst h; exact Or.inr ⟨List.mem_cons_self _ _, Bool.eq_false_iff.mpr hw⟩
      · rcases ih h with h1 | h1
        · exact Or.inl h1
        · exact Or.inr ⟨List.mem_cons_of_mem _ h1.1, h1.2⟩

/-- Characters of `dotSubAux` output: a period, a pending character, or an
input character. -/
theorem mem_dotSubAux :
    ∀ {l : List Char} {d : Bool} {p : List Char} {x : Char},
      x ∈ dotSubAux d p l → x = '.' ∨ x ∈ p ∨ x ∈ l := by
  intro l
  induction l with
  | nil =>
    intro d p x h
    rw [show dotSubAux d p [] = p from rfl] at h
    exact Or.inr (Or.inl h)
  | cons c cs ih =>
    intro d p x h
    by_cases hdot : c = '.'
    · subst hdot
      rw [show dotSubAux d p ('.' :: cs) = '.' :: dotSubAux true [] cs from by
          simp [dotSubAux]] at h
      simp only [List.mem_cons] at h
      rcases h with h | h
      · exact Or.inl h
      · rcases ih h with h1 | h1 | h1
        · exact Or.inl h1
        · simp at h1
        · exact Or.inr (Or.inr (List.mem_cons_of_mem _ h1))
    · by_cases hw : isWs c = true
      · rw [show dotSubAux d p (c :: cs)
            = if d then dotSubAux true [] cs
              else dotSubAux false (p ++ [c]) cs from by
            simp [dotSubAux, hdot, hw]] at h
        cases d with
        | true =>
          rcases ih (by simpa using h) with h1 | h1 | h1
          · exact Or.inl h1
          · simp at h1
          · exact Or.inr (Or.inr (List.mem_cons_of_mem _ h1))
        | false =>
          rcases ih (by simpa using h) with h1 | h1 | h1
          · exact Or.inl h1
          · rcases List.mem_append.mp h1 with h2 | h2
            · exact Or.inr (Or.inl h2)
            · simp only [List.mem_singleton] at h2
              exact Or.inr (Or.inr (h2 ▸ List.mem_cons_self _ _))
          · exact Or.inr (Or.inr (List.mem_cons_of_mem _ h1))
      · rw [show dotSubAux d p (c :: cs)
            = p ++ (c :: dotSubAux false [] cs) from by
            simp [dotSubAux, hdot, hw]] at h
        rcases List.mem_append.mp h with h1 | h1
        · exact Or.inr (Or.inl h1)
        · simp only [List.mem_cons] at h1
          rcases h1 with h1 | h1
          · exact Or.inr (Or.inr (h1 ▸ List.mem_cons_self _ _))
          · rcases ih h1 with h2 | h2 | h2
            · exact Or.inl h2
            · simp at h2
            · exact Or.inr (Or.inr (List.mem_cons_of_mem _ h2))

/-- `str.replace` distributes over concatenation. -/
theorem replaceChar_append (c : Char) (r : List Char) (a b : List Char) :
    replaceChar c r (a ++ b) = replaceChar c r a ++ replaceChar c r b := by
  simp [replaceChar]

/-- The illegal-character replacement loop distributes over concatenation. -/
theorem applyIllegalRepl_append (a b : List Char) :
    applyIllegalRepl (a ++ b) = applyIllegalRepl a ++ applyIllegalRepl b := by
  simp only [applyIllegalRepl, ILLEGAL_CHARS, List.foldl_cons, List.foldl_nil]
  simp only [replaceChar_append]

theorem applyIllegalRepl_cons (c : Char) (l : List Char) :
    applyIllegalRepl (c :: l) = applyIllegalRepl [c] ++ applyIllegalRepl l := by
  rw [show (c :: l) = [c] ++ l from rfl, applyIllegalRepl_append]

/-- A good character is left unchanged by the replacement loop. -/
theorem applyIllegalRepl_single_good {c : Char} (h : goodChar c = true) :
    applyIllegalRepl [c] = [c] := by
  simp only [goodChar, ILLEGAL_CHARS, List.map_cons, List.map_nil, decide_eq_true_eq,
    List.mem_cons, List.not_mem_nil, or_false, not_or] at h
  obtain ⟨h1, h2, h3, h4, h5, h6, h7, h8, h9⟩ := h
  simp [applyIllegalRepl, ILLEGAL_CHARS, replaceChar, h1, h2, h3, h4, h5, h6, h7, h8, h9]

/-- Every output character of the replacement loop on a single character is
good. -/
theorem applyIllegalRepl_single_all_good (c : Char) :
    (applyIllegalRepl [c]).all goodChar = true := by
  by_cases h : goodChar c = true
  · rw [applyIllegalRepl_single_good h]
    simp [h]
  · have hc : c ∈ (['<', '>', ':', '\"', '/', '\\', '|', '?', '*'] : List Char) := by
      have h' : c ∈ ILLEGAL_CHARS.map Prod.fst := by
        simp only [goodChar, decide_eq_true_eq, not_not, Bool.not_eq_true] at h
        simpa [goodChar] using h
      simpa [ILLEGAL_CHARS] using h'
    fin_cases hc <;> decide

/-- Every output character of the replacement loop is good. -/
theorem good_applyIllegalRepl :
    ∀ {l : List Char} {x : Char}, x ∈ applyIllegalRepl l → goodChar x = true := by
  intro l
  induction l with
  | nil =>
    intro x h
    rw [show applyIllegalRepl [] = [] from rfl] at h
    exact absurd h (List.not_mem_nil x)
  | cons c cs ih =>
    intro x h
    rw [applyIllegalRepl_cons] at h
    rcases List.mem_append.mp h with h1 | h1
    · exact List.all_eq_true.mp (applyIllegalRepl_single_all_good c) x h1
    · exact ih h1

/-- A list of good characters is a fixed point of the replacement loop. -/
theorem applyIllegalRepl_fixed :
    ∀ {l : List Char}, (∀ x ∈ l, goodChar x = true) → applyIllegalRepl l = l := by
  intro l
  induction l with
  | nil => intro _; rfl
  | cons c cs ih =>
    intro h
    rw [applyIllegalRepl_cons, applyIllegalRepl_single_good (h c (List.mem_cons_self _ _)),
      ih (fun x hx => h x (List.mem_cons_of_mem _ hx))]
    rfl

theorem noWsPair_of_left {a : Char} (h : isWs a = false) (b : Char) :
    noWsPair a b = true := by
  simp [noWsPair, h]

theorem dotAdjFree_of_left {a : Char} (h1 : isWs a = false) (h2 : (a == '.') = false)
    (b : Char) : dotAdjFree a b = true := by
  simp [dotAdjFree, h1, h2]

theorem adjOK_mono {P Q : Char → Char → Bool} (hpq : ∀ a b, P a b = true → Q a b = true) :
    ∀ {l : List Char}, adjOK P l = true → adjOK Q l = true := by
  intro l
  induction l with
  | nil => intro _; rfl
  | cons a rest ih =>
    intro h
    cases rest with
    | nil => rfl
    | cons b t =>
      rw [adjOK, Bool.and_eq_true] at h
      exact adjOK_cons_intro
        (fun x hx => by
          simp only [List.head?_cons, Option.some.injEq] at hx
          subst hx
          exact hpq _ _ h.1)
        (ih h.2)

theorem noWsPair_of_dotAdjFree (a b : Char) (h : dotAdjFree a b = true) :
    noWsPair a b = true := by
  rw [dotAdjFree, Bool.and_eq_true, Bool.and_eq_true] at h
  exact h.1.1

theorem allWsSpace_cons_elim {c : Char} {cs : List Char}
    (h : allWsSpace (c :: cs) = true) : allWsSpace cs = true := by
  rw [allWsSpace, List.all_cons, Bool.and_eq_true] at h
  exact h.2

theorem allWsSpace_head {c : Char} {cs : List Char}
    (h : allWsSpace (c :: cs) = true) (hw : isWs c = true) : c = ' ' := by
  rw [allWsSpace, List.all_cons, Bool.and_eq_true] at h
  have := h.1
  rw [hw] at this
  simpa using this

theorem noTrailWs_cons_elim {c : Char} {cs : List Char}
    (h : noTrailWs (c :: cs) = true) : noTrailWs cs = true := by
  cases cs with
  | nil => rfl
  | cons y ys => exact h

theorem noTrailWs_cons_intro {c : Char} {l : List Char}
    (hc : isWs c = false) (h : noTrailWs l = true) : noTrailWs (c :: l) = true := by
  cases l with
  | nil => simp [noTrailWs, hc]
  | cons y ys => exact h

theorem noTrailWs_cons_ws {c : Char} {cs : List Char}
    (h : noTrailWs (c :: cs) = true) (hw : isWs c = true) : cs ≠ [] := by
  intro he
  subst he
  rw [noTrailWs, hw] at h
  simp at h

theorem collapse_noLead_true : ∀ l : List Char, noLeadWs (collapseWsAux true l) = true := by
  intro l
  induction l with
  | nil => rfl
  | cons c cs ih =>
    by_cases hw : isWs c = true
    · rw [show collapseWsAux true (c :: cs)
          = if isWs c then collapseWsAux true cs
            else c :: collapseWsAux false cs from rfl, if_pos hw]
      exact ih
    · rw [show collapseWsAux true (c :: cs)
          = if isWs c then collapseWsAux true cs
            else c :: collapseWsAux false cs from rfl, if_neg hw]
      simpa [noLeadWs] using Bool.eq_false_iff.mpr hw

theorem collapse_adjOK : ∀ l : List Char,
    adjOK noWsPair (collapseWsAux false l) = true ∧
    adjOK noWsPair (collapseWsAux true l) = true := by
  intro l
  induction l with
  | nil => exact ⟨rfl, rfl⟩
  | cons c cs ih =>
    by_cases hw : isWs c = true
    · constructor
      · rw [show collapseWsAux false (c :: cs)
            = if isWs c then ' ' :: collapseWsAux true cs
              else c :: collapseWsAux false cs from rfl, if_pos hw]
        apply adjOK_cons_intro _ ih.2
        intro b hb
        have hl := collapse_noLead_true cs
        cases hcc : collapseWsAux true cs with
        | nil => rw [hcc] at hb; simp at hb
        | cons y ys =>
          rw [hcc] at hb
          simp only [List.head?_cons, Option.some.injEq] at hb
          rw [hcc] at hl
          have hbw : isWs y = false := by simpa [noLeadWs] using hl
          rw [← hb]
          simp [noWsPair, hbw]
      · rw [show collapseWsAux true (c :: cs)
            = if isWs c then collapseWsAux true cs
              else c :: collapseWsAux false cs from rfl, if_pos hw]
        exact ih.2
    · have hwc : isWs c = false := Bool.eq_false_iff.mpr hw
      constructor
      · rw [show collapseWsAux false (c :: cs)
            = if isWs c then ' ' :: collapseWsAux true cs
              else c :: collapseWsAux false cs from rfl, if_neg hw]
        exact adjOK_cons_intro (fun b _ => noWsPair_of_left hwc b) ih.1
      · rw [show collapseWsAux true (c :: cs)
            = if isWs c then collapseWsAux true cs
              else c :: collapseWsAux false cs from rfl, if_neg hw]
        exact adjOK_cons_intro (fun b _ => noWsPair_of_left hwc b) ih.1

theorem noLead_dropWhile : ∀ l : List Char, noLeadWs (l.dropWhile isWs) = true := by
  intro l
  induction l with
  | nil => rfl
  | cons c cs ih =>
    by_cases hw : isWs c = true
    · rw [List.dropWhile_cons_of_pos hw]
      exact ih
    · rw [List.dropWhile_cons_of_neg hw]
      simpa [noLeadWs] using Bool.eq_false_iff.mpr hw

theorem noLead_dropTrailingP {q : Char → Bool} {l : List Char}
    (h : noLeadWs l = true) : noLeadWs (dropTrailingP q l) = true := by
  cases l with
  | nil => rfl
  | cons c cs =>
    by_cases hc : ((dropTrailingP q cs).isEmpty && q c) = true
    · have he : dropTrailingP q (c :: cs) = [] := by
        simp only [dropTrailingP]
        rw [if_pos hc]
      rw [he]
      rfl
    · have he : dropTrailingP q (c :: cs) = c :: dropTrailingP q cs := by
        simp only [dropTrailingP]
        rw [if_neg hc]
      rw [he]
      exact h

theorem noTrailWs_dropTrailingP_isWs : ∀ l : List Char,
    noTrailWs (dropTrailingP isWs l) = true := by
  intro l
  induction l with
  | nil => rfl
  | cons c cs ih =>
    by_cases hc : ((dropTrailingP isWs cs).isEmpty && isWs c) = true
    · have he : dropTrailingP isWs (c :: cs) = [] := by
        simp only [dropTrailingP]
        rw [if_pos hc]
      rw [he]
      rfl
    · have he : dropTrailingP isWs (c :: cs) = c :: dropTrailingP isWs cs := by
        simp only [dropTrailingP]
        rw [if_neg hc]
      rw [he]
      cases hr : dropTrailingP isWs cs with
      | nil =>
        rw [hr] at hc
        have hwc : isWs c = false := by simpa using hc
        simp [noTrailWs, hwc]
      | cons y ys =>
        rw [hr] at ih
        exact ih

/-- Output facts of `dotSubAux` on normalized input (all whitespace single
spaces, no whitespace runs, no trailing whitespace): the result has no
whitespace runs, no whitespace adjacent to a period, and no trailing
whitespace; starting in `afterDot` state it additionally has no leading
whitespace. -/
theorem dotSubAux_nice :
    ∀ (n : Nat) (l : List Char), l.length ≤ n →
      allWsSpace l = true → adjOK noWsPair l = true → noTrailWs l = true →
      (adjOK dotAdjFree (dotSubAux false [] l) = true ∧
        noTrailWs (dotSubAux false [] l) = true) ∧
      (adjOK dotAdjFree (dotSubAux true [] l) = true ∧
        noTrailWs (dotSubAux true [] l) = true ∧
        noLeadWs (dotSubAux true [] l) = true) := by
  intro n
  induction n with
  | zero =>
    intro l hl _ _ _
    have hnil : l = [] := List.length_eq_zero.mp (Nat.le_zero.mp hl)
    subst hnil
    exact ⟨⟨rfl, rfl⟩, rfl, rfl, rfl⟩
  | succ n ih =>
    intro l hl hws hadj htr
    cases l with
    | nil => exact ⟨⟨rfl, rfl⟩, rfl, rfl, rfl⟩
    | cons c cs =>
      have hlcs : cs.length ≤ n := by
        simp only [List.length_cons] at hl
        omega
      have hwscs := allWsSpace_cons_elim hws
      have hadjcs := adjOK_cons_elim hadj
      have htrcs := noTrailWs_cons_elim htr
      have hdws : isWs '.' = false := by decide
      by_cases hdot : c = '.'
      · subst hdot
        obtain ⟨_, t1, t2, t3⟩ := ih cs hlcs hwscs hadjcs htrcs
        have heq : ∀ d : Bool, dotSubAux d [] ('.' :: cs) = '.' :: dotSubAux true [] cs := by
          intro d
          cases d <;> rfl
        have hX1 : adjOK dotAdjFree ('.' :: dotSubAux true [] cs) = true := by
          apply adjOK_cons_intro _ t1
          intro b hb
          cases hcc : dotSubAux true [] cs with
          | nil => rw [hcc] at hb; simp at hb
          | cons y ys =>
            rw [hcc] at hb
            simp only [List.head?_cons, Option.some.injEq] at hb
            rw [hcc] at t3
            have hbw : isWs y = false := by simpa [noLeadWs] using t3
            rw [← hb]
            simp [dotAdjFree, hdws, hbw]
        have hX2 : noTrailWs ('.' :: dotSubAux true [] cs) = true :=
          noTrailWs_cons_intro hdws t2
        have hX3 : noLeadWs ('.' :: dotSubAux true [] cs) = true := by
          simp [noLeadWs, hdws]
        rw [heq false, heq true]
        exact ⟨⟨hX1, hX2⟩, hX1, hX2, hX3⟩
      · by_cases hw : isWs c = true
        · have heqT : dotSubAux true [] (c :: cs) = dotSubAux true [] cs := by
            simp [dotSubAux, hdot, hw]
          have heqF : dotSubAux false [] (c :: cs) = dotSubAux false [c] cs := by
            simp [dotSubAux, hdot, hw]
          have hcs_ne : cs ≠ [] := noTrailWs_cons_ws htr hw
          obtain ⟨_, t1, t2, t3⟩ := ih cs hlcs hwscs hadjcs htrcs
          cases cs with
          | nil => exact absurd rfl hcs_ne
          | cons c' cs' =>
            have hwc' : isWs c' = false := by
              have hp := adjOK_head_pair hadj c' rfl
              rw [noWsPair, hw] at hp
              simpa using hp
            have hlcs' : cs'.length ≤ n := by
              simp only [List.length_cons] at hl
              omega
            have hws' := allWsSpace_cons_elim hwscs
            have hadj' := adjOK_cons_elim hadjcs
            have htr' := noTrailWs_cons_elim htrcs
            obtain ⟨⟨g1, g2⟩, u1, u2, u3⟩ := ih cs' hlcs' hws' hadj' htr'
            by_cases hdot' : c' = '.'
            · subst hdot'
              have heq2 : dotSubAux false [c] ('.' :: cs') = '.' :: dotSubAux true [] cs' := by
                simp [dotSubAux]
              have hX1 : adjOK dotAdjFree ('.' :: dotSubAux true [] cs') = true := by
                apply adjOK_cons_intro _ u1
                intro b hb
                cases hcc : dotSubAux true [] cs' with
                | nil => rw [hcc] at hb; simp at hb
                | cons y ys =>
                  rw [hcc] at hb
                  simp only [List.head?_cons, Option.some.injEq] at hb
                  rw [hcc] at u3
                  have hbw : isWs y = false := by simpa [noLeadWs] using u3
                  rw [← hb]
                  simp [dotAdjFree, hdws, hbw]
              have hX2 : noTrailWs ('.' :: dotSubAux true [] cs') = true :=
                noTrailWs_cons_intro hdws u2
              rw [heqF, heq2, heqT]
              exact ⟨⟨hX1, hX2⟩, t1, t2, t3⟩
            · have hbq : (c' == '.') = false := beq_eq_false_iff_ne.mpr hdot'
              have heq2 : dotSubAux false [c] (c' :: cs')
                  = c :: c' :: dotSubAux false [] cs' := by
                simp [dotSubAux, hdot', hwc']
              have hX1 : adjOK dotAdjFree (c :: c' :: dotSubAux false [] cs') = true := by
                apply adjOK_cons_intro
                · intro b hb
                  simp only [List.head?_cons, Option.some.injEq] at hb
                  subst hb
                  simp [dotAdjFree, hwc', hbq, beq_eq_false_iff_ne.mpr hdot]
                · exact adjOK_cons_intro (fun b _ => dotAdjFree_of_left hwc' hbq b) g1
              have hX2 : noTrailWs (c :: c' :: dotSubAux false [] cs') = true := by
                show noTrailWs (c' :: dotSubAux false [] cs') = true
                exact noTrailWs_cons_intro hwc' g2
              rw [heqF, heq2, heqT]
              exact ⟨⟨hX1, hX2⟩, t1, t2, t3⟩
        · have hwc : isWs c = false := Bool.eq_false_iff.mpr hw
          have hbc : (c == '.') = false := beq_eq_false_iff_ne.mpr hdot
          have heqF : dotSubAux false [] (c :: cs) = c :: dotSubAux false [] cs := by
            simp [dotSubAux, hdot, hw]
          have heqT : dotSubAux true [] (c :: cs) = c :: dotSubAux false [] cs := by
            simp [dotSubAux, hdot, hw]
          obtain ⟨⟨f1, f2⟩, _, _, _⟩ := ih cs hlcs hwscs hadjcs htrcs
          have hX1 : adjOK dotAdjFree (c :: dotSubAux false [] cs) = true :=
            adjOK_cons_intro (fun b _ => dotAdjFree_of_left hwc hbc b) f1
          have hX2 : noTrailWs (c :: dotSubAux false [] cs) = true :=
            noTrailWs_cons_intro hwc f2
          have hX3 : noLeadWs (c :: dotSubAux false [] cs) = true := by
            simp [noLeadWs, hwc]
          rw [heqF, heqT]
          exact ⟨⟨hX1, hX2⟩, hX1, hX2, hX3⟩

/-- Whitespace collapsing is the identity on text whose whitespace is already
normalized (all spaces, no runs). -/
theorem collapseWsAux_fixed :
    ∀ l : List Char, allWsSpace l = true → adjOK noWsPair l = true →
      collapseWsAux false l = l ∧ (noLeadWs l = true → collapseWsAux true l = l) := by
  intro l
  induction l with
  | nil => exact fun _ _ => ⟨rfl, fun _ => rfl⟩
  | cons c cs ih =>
    intro hws hadj
    obtain ⟨ihf, iht⟩ := ih (allWsSpace_cons_elim hws) (adjOK_cons_elim hadj)
    by_cases hw : isWs c = true
    · have hsp : c = ' ' := allWsSpace_head hws hw
      have hlead : noLeadWs cs = true := by
        cases cs with
        | nil => rfl
        | cons y ys =>
          have hp := adjOK_head_pair hadj y rfl
          rw [noWsPair, hw] at hp
          have : isWs y = false := by simpa using hp
          simp [noLeadWs, this]
      constructor
      · rw [show collapseWsAux false (c :: cs)
            = if isWs c then ' ' :: collapseWsAux true cs
              else c :: collapseWsAux false cs from rfl, if_pos hw, iht hlead, hsp]
      · intro hld
        rw [noLeadWs, hw] at hld
        simp at hld
    · have hwc : isWs c = false := Bool.eq_false_iff.mpr hw
      constructor
      · rw [show collapseWsAux false (c :: cs)
            = if isWs c then ' ' :: collapseWsAux true cs
              else c :: collapseWsAux false cs from rfl, if_neg hw, ihf]
      · intro _
        rw [show collapseWsAux true (c :: cs)
            = if isWs c then collapseWsAux true cs
              else c :: collapseWsAux false cs from rfl, if_neg hw, ihf]

/-- Trailing-strip is the identity on text with no trailing whitespace. -/
theorem dropTrailingP_fixed :
    ∀ {l : List Char}, noTrailWs l = true → dropTrailingP isWs l = l := by
  intro l
  induction l with
  | nil => intro _; rfl
  | cons c cs ih =>
    intro h
    cases cs with
    | nil =>
      have hwc : isWs c = false := by simpa [noTrailWs] using h
      simp [dropTrailingP, hwc]
    | cons y ys =>
      have hr := ih (noTrailWs_cons_elim h)
      have he : dropTrailingP isWs (c :: y :: ys)
          = if (dropTrailingP isWs (y :: ys)).isEmpty && isWs c then []
            else c :: dropTrailingP isWs (y :: ys) := rfl
      rw [he, hr]
      simp

/-- `str.strip` is the identity on text with no leading and no trailing
whitespace. -/
theorem stripChars_fixed {l : List Char} (h1 : noLeadWs l = true)
    (h2 : noTrailWs l = true) : stripChars l = l := by
  unfold stripChars
  have hd : l.dropWhile isWs = l := by
    cases l with
    | nil => rfl
    | cons c cs =>
      have hwc : isWs c = false := by simpa [noLeadWs] using h1
      rw [List.dropWhile_cons_of_neg (by simp [hwc])]
  rw [hd, dropTrailingP_fixed h2]

theorem dotAdjFree_dot_right {b : Char} (h : dotAdjFree '.' b = true) :
    isWs b = false := by
  rw [dotAdjFree, Bool.and_eq_true, Bool.and_eq_true] at h
  have h3 := h.2
  have hd : ('.' == '.') = true := by decide
  rw [hd, Bool.true_and, Bool.not_eq_true'] at h3
  exact h3

theorem dotAdjFree_ws_left {a b : Char} (ha : isWs a = true)
    (h : dotAdjFree a b = true) : isWs b = false ∧ (b == '.') = false := by
  rw [dotAdjFree, Bool.and_eq_true, Bool.and_eq_true] at h
  obtain ⟨⟨h1, h2⟩, _⟩ := h
  rw [ha, Bool.true_and, Bool.not_eq_true'] at h1
  rw [ha, Bool.true_and, Bool.not_eq_true'] at h2
  exact ⟨h1, h2⟩

/-- The period-spacing substitution is the identity on text with no
whitespace adjacent to a period (and no whitespace runs). -/
theorem dotSubAux_fixed :
    ∀ l : List Char, adjOK dotAdjFree l = true →
      (dotSubAux false [] l = l) ∧
      ((∀ b, l.head? = some b → isWs b = false ∧ (b == '.') = false) →
        ∀ p, dotSubAux false p l = p ++ l) ∧
      (noLeadWs l = true → dotSubAux true [] l = l) := by
  intro l
  induction l with
  | nil =>
    exact fun _ => ⟨rfl, fun _ p => by
      rw [show dotSubAux false p [] = p from rfl, List.append_nil], fun _ => rfl⟩
  | cons c cs ih =>
    intro hadj
    obtain ⟨iha, ihb, ihc⟩ := ih (adjOK_cons_elim hadj)
    have hdws : isWs '.' = false := by decide
    by_cases hdot : c = '.'
    · subst hdot
      have hlead : noLeadWs cs = true := by
        cases cs with
        | nil => rfl
        | cons y ys =>
          have hp := dotAdjFree_dot_right (adjOK_head_pair hadj y rfl)
          simp [noLeadWs, hp]
      refine ⟨?_, ?_, ?_⟩
      · show '.' :: dotSubAux true [] cs = '.' :: cs
        rw [ihc hlead]
      · intro hb p
        have := (hb '.' rfl).2
        simp at this
      · intro _
        show '.' :: dotSubAux true [] cs = '.' :: cs
        rw [ihc hlead]
    · by_cases hw : isWs c = true
      · have hcsfacts : ∀ b, cs.head? = some b → isWs b = false ∧ (b == '.') = false := by
          intro b hb
          cases cs with
          | nil => simp at hb
          | cons y ys =>
            simp only [List.head?_cons, Option.some.injEq] at hb
            rw [← hb]
            exact dotAdjFree_ws_left hw (adjOK_head_pair hadj y rfl)
        refine ⟨?_, ?_, ?_⟩
        · have heqF : dotSubAux false [] (c :: cs) = dotSubAux false [c] cs := by
            simp [dotSubAux, hdot, hw]
          rw [heqF, ihb hcsfacts [c]]
          rfl
        · intro hb _
          have := (hb c rfl).1
          rw [hw] at this
          simp at this
        · intro hld
          rw [noLeadWs, hw] at hld
          simp at hld
      · have hwc : isWs c = false := Bool.eq_false_iff.mpr hw
        have heqF : ∀ p, dotSubAux false p (c :: cs) = p ++ (c :: dotSubAux false [] cs) := by
          intro p
          simp [dotSubAux, hdot, hw]
        have heqT : dotSubAux true [] (c :: cs) = c :: dotSubAux false [] cs := by
          simp [dotSubAux, hdot, hw]
        refine ⟨?_, ?_, ?_⟩
        · rw [heqF [], iha]
          rfl
        · intro _ p
          rw [heqF p, iha]
        · intro _
          rw [heqT, iha]

/-- The period-spacing substitution preserves the absence of leading
whitespace. -/
theorem dotSub_noLead {l : List Char} (h : noLeadWs l = true) :
    noLeadWs (dotSubChars l) = true := by
  cases l with
  | nil => rfl
  | cons c cs =>
    have hwc : isWs c = false := by simpa [noLeadWs] using h
    by_cases hdot : c = '.'
    · subst hdot
      show (!isWs '.') = true
      decide
    · have heq : dotSubChars (c :: cs) = c :: dotSubAux false [] cs := by
        unfold dotSubChars
        simp [dotSubAux, hdot, hwc]
      rw [heq]
      simp [noLeadWs, hwc]

/-- The normalization chain of `sanitize_filename` before truncation:
replacements, whitespace collapse, strip, and period-spacing removal. -/
def normalizeName (cs : List Char) : List Char :=
  dotSubChars (stripChars (collapseWs (applyIllegalRepl cs)))

/-- The truncation step of `sanitize_filename`. -/
def clipName (t : List Char) : List Char :=
  if t.length > MAX_TITLE_LENGTH then t.take MAX_TITLE_LENGTH else t

theorem string_data_mk (l : List Char) : String.data (⟨l⟩ : String) = l := rfl

/-- `sanitize_filename` on a non-empty input, written without local
bindings. -/
theorem sanitize_filename_eq (s : String) (hs : ¬ s = "") :
    sanitize_filename s =
      if (clipName (normalizeName s.data)).isEmpty || clipName (normalizeName s.data) = ['.']
      then "未命名" else ⟨clipName (normalizeName s.data)⟩ := by
  unfold sanitize_filename
  rw [if_neg hs]
  rfl

/-- The normalized form of a name satisfies all four structural invariants,
and all its characters are good. -/
theorem normalizeName_invariants (cs : List Char) :
    adjOK dotAdjFree (normalizeName cs) = true ∧
    noTrailWs (normalizeName cs) = true ∧
    noLeadWs (normalizeName cs) = true ∧
    allWsSpace (normalizeName cs) = true ∧
    (∀ x ∈ normalizeName cs, goodChar x = true) := by
  have hu_ws : allWsSpace (stripChars (collapseWs (applyIllegalRepl cs))) = true := by
    rw [allWsSpace, List.all_eq_true]
    intro x hx
    unfold stripChars at hx
    have hx2 : x ∈ collapseWsAux false (applyIllegalRepl cs) :=
      mem_dropWhile (mem_dropTrailingP hx)
    rcases mem_collapseWsAux hx2 with h | h
    · subst h; decide
    · simp [h.2]
  have hu_adj : adjOK noWsPair (stripChars (collapseWs (applyIllegalRepl cs))) = true := by
    unfold stripChars
    exact adjOK_dropTrailingP (adjOK_dropWhile (collapse_adjOK (applyIllegalRepl cs)).1)
  have hu_ld : noLeadWs (stripChars (collapseWs (applyIllegalRepl cs))) = true := by
    unfold stripChars
    exact noLead_dropTrailingP (noLead_dropWhile _)
  have hu_tr : noTrailWs (stripChars (collapseWs (applyIllegalRepl cs))) = true := by
    unfold stripChars
    exact noTrailWs_dropTrailingP_isWs _
  obtain ⟨⟨h1, h2⟩, _⟩ :=
    dotSubAux_nice (stripChars (collapseWs (applyIllegalRepl cs))).length
      (stripChars (collapseWs (applyIllegalRepl cs)))
      (le_refl _) hu_ws hu_adj hu_tr
  unfold normalizeName
  refine ⟨h1, h2, dotSub_noLead hu_ld, ?_, ?_⟩
  · rw [allWsSpace, List.all_eq_true]
    intro x hx
    unfold dotSubChars at hx
    rcases mem_dotSubAux hx with h | h | h
    · subst h; decide
    · simp at h
    · exact List.all_eq_true.mp hu_ws x h
  · intro x hx
    unfold dotSubChars at hx
    rcases mem_dotSubAux hx with h | h | h
    · subst h; decide
    · simp at h
    · unfold stripChars at h
      have hx2 : x ∈ collapseWsAux false (applyIllegalRepl cs) :=
        mem_dropWhile (mem_dropTrailingP h)
      rcases mem_collapseWsAux hx2 with h3 | h3
      · subst h3; decide
      · exact good_applyIllegalRepl h3.1

/-- A normalized name is a fixed point of the whole normalization chain. -/
theorem normalizeName_fixed (cs : List Char) :
    normalizeName (normalizeName cs) = normalizeName cs := by
  obtain ⟨h1, h2, h3, h4, h5⟩ := normalizeName_invariants cs
  have e1 : applyIllegalRepl (normalizeName cs) = normalizeName cs :=
    applyIllegalRepl_fixed h5
  have e2 : collapseWs (normalizeName cs) = normalizeName cs :=
    (collapseWsAux_fixed _ h4 (adjOK_mono noWsPair_of_dotAdjFree h1)).1
  have e3 : stripChars (normalizeName cs) = normalizeName cs :=
    stripChars_fixed h3 h2
  have e4 : dotSubChars (normalizeName cs) = normalizeName cs :=
    (dotSubAux_fixed _ h1).1
  nth_rewrite 1 [normalizeName]
  rw [e1, e2, e3, e4]

set_option maxHeartbeats 2000000 in
/-- C7 amended: sanitization is idempotent on every input whose normalized
form (after character replacement, whitespace collapsing, stripping, and
period-spacing removal, before truncation) fits within the 150-character cap;
only cap truncation, which can cut the name right after a word and leave a
trailing space, breaks idempotence. -/
theorem c7_idempotent_amended (s : String)
    (h : (normalizeName s.data).length ≤ MAX_TITLE_LENGTH) :
    sanitize_filename (sanitize_filename s) = sanitize_filename s := by
  by_cases hs : s = ""
  · subst hs; decide
  · have hclip : clipName (normalizeName s.data) = normalizeName s.data := by
      unfold clipName
      rw [if_neg (by omega)]
    rw [sanitize_filename_eq s hs, hclip]
    by_cases hemp : ((normalizeName s.data).isEmpty
        || decide (normalizeName s.data = ['.'])) = true
    · rw [if_pos hemp]
      decide
    · rw [if_neg hemp]
      have htne : normalizeName s.data ≠ [] := by
        intro he
        apply hemp
        rw [he]
        rfl
      have hmkne : ¬ (⟨normalizeName s.data⟩ : String) = "" := by
        intro he
        apply htne
        have h2 := congrArg String.data he
        rw [string_data_mk, show String.data "" = [] from rfl] at h2
        exact h2
      rw [sanitize_filename_eq _ hmkne, string_data_mk, normalizeName_fixed s.data, hclip,
        if_neg hemp]

set_option maxHeartbeats 2000000 in
/-- Witness for C7 (amended): a short name with an illegal character is a
sanitizer fixed point after one application. -/
theorem c7_idempotent_amended_witness :
    (normalizeName ("Deep: Learning" : String).data).length ≤ MAX_TITLE_LENGTH ∧
    sanitize_filename (sanitize_filename "Deep: Learning")
      = sanitize_filename "Deep: Learning" ∧
    sanitize_filename "Deep: Learning" = "Deep - Learning" :=
  ⟨by decide, c7_idempotent_amended _ (by decide), by decide⟩

end PdfTitleRenamer
